import Mathlib

/-!
Verification of the bigram language model implemented in `04-ngram.ipynb`.

The notebook's data structures are embedded shallowly:

* a Python `Counter` becomes an association list `Counter := List (String × Nat)`
  whose lookups default to zero and never mutate the table;
* the `defaultdict(Counter)` holding bigram rows becomes
  `BigramTable := List (String × Counter)`; reading a missing row with
  `bigram_counts[prev]` inserts an empty row at the end (auto-vivification),
  which `vivify` models, so every function that performs such a read returns
  the possibly-grown table alongside its result;
* float arithmetic becomes exact `ℚ` arithmetic, with `Real.log` / `Real.exp`
  applied at the boundary; a Python `ZeroDivisionError` or `math` domain error
  is modelled by returning `none`.
-/

abbrev Counter := List (String × Nat)

abbrev BigramTable := List (String × Counter)

/-- `Counter` lookup: a missing key reads as count 0 (Python `Counter[w]`). -/
def cget : Counter → String → Nat
  | [], _ => 0
  | (x, n) :: rest, w => if x = w then n else cget rest w

/-- `counter[w] += 1`: update in place, or append a fresh key at the end. -/
def cincr : Counter → String → Counter
  | [], w => [(w, 1)]
  | (x, n) :: rest, w => if x = w then (x, n + 1) :: rest else (x, n) :: cincr rest w

/-- `sum(counter.values())`. -/
def ctotal (c : Counter) : Nat := (c.map Prod.snd).sum

/-- Row read of the bigram table; a missing row reads as the empty counter. -/
def dget : BigramTable → String → Counter
  | [], _ => []
  | (x, c) :: rest, p => if x = p then c else dget rest p

/-- The state effect of `bigram_counts[p]` on a `defaultdict(Counter)`:
reading a missing key appends an empty row at the end. -/
def vivify : BigramTable → String → BigramTable
  | [], p => [(p, [])]
  | (x, c) :: rest, p => if x = p then (x, c) :: rest else (x, c) :: vivify rest p

/-- `bigram_counts[p][w] += 1` on a `defaultdict(Counter)`. -/
def bincr : BigramTable → String → String → BigramTable
  | [], p, w => [(p, cincr [] w)]
  | (x, c) :: rest, p, w =>
    if x = p then (x, cincr c w) :: rest else (x, c) :: bincr rest p w

/-- The count stored for the bigram `(p, w)`; missing keys read as 0. -/
def bcount (b : BigramTable) (p w : String) : Nat := cget (dget b p) w

/-- `w.lower()` applied characterwise. -/
def lowerStr (s : String) : String := String.mk (s.data.map Char.toLower)

/-- `convert_sentence`: wrap with the boundary markers and case-fold. -/
def convert_sentence (sentence : List String) : List String :=
  ["<s>"] ++ sentence.map lowerStr ++ ["</s>"]

/-- The unigram loop body: `for word in sentence[1:]: unigram_counts[word] += 1`. -/
def addUni (u : Counter) (ws : List String) : Counter := ws.foldl cincr u

/-- `zip(sentence[:-1], sentence[1:])`. -/
def pairsOf (s : List String) : List (String × String) := s.dropLast.zip (s.drop 1)

/-- The bigram loop body: increment every adjacent pair of the sentence. -/
def addBi (b : BigramTable) (prs : List (String × String)) : BigramTable :=
  prs.foldl (fun acc pr => bincr acc pr.1 pr.2) b

/-- Occurrences of a token in a list of tokens. -/
def scount : List String → String → Nat
  | [], _ => 0
  | x :: rest, w => (if x = w then 1 else 0) + scount rest w

/-- Occurrences of an ordered pair in a list of pairs. -/
def pcount : List (String × String) → String → String → Nat
  | [], _, _ => 0
  | (a, c) :: rest, q, v => (if a = q ∧ c = v then 1 else 0) + pcount rest q v

/-- `get_counts`: one pass collecting unigrams and `start_count`, a second pass
collecting bigrams, then `token_count = float(sum(unigram_counts.values()))`. -/
def get_counts (sentences : List (List String)) : Counter × BigramTable × Nat × ℚ :=
  let unigram_counts := sentences.foldl (fun u s => addUni u ((convert_sentence s).drop 1)) []
  let start_count := sentences.length
  let bigram_counts := sentences.foldl (fun b s => addBi b (pairsOf (convert_sentence s))) []
  let token_count : ℚ := (ctotal unigram_counts : ℚ)
  (unigram_counts, bigram_counts, start_count, token_count)

/-- The number of distinct keys of a counter (the spec's VocabularySize). -/
def dkeys (c : Counter) : Nat := ((c.map Prod.fst).dedup).length

/-- The argument of the logarithm in `get_log_prob_addk`:
`(bigram_counts[prev][word] + k) / (unigram_counts[prev] + k*len(unigram_counts))`. -/
def addkArg (prev_word word : String) (unigram_counts : Counter)
    (bigram_counts : BigramTable) (k : ℚ) : ℚ :=
  ((bcount bigram_counts prev_word word : ℚ) + k) /
    ((cget unigram_counts prev_word : ℚ) + k * (unigram_counts.length : ℚ))

/-- `get_log_prob_addk`.  The value is `none` when Python would raise
(`ZeroDivisionError` for a zero denominator, `ValueError` for `log` of a
non-positive number); the second component is the table after the
auto-vivifying read `bigram_counts[prev_word]`. -/
noncomputable def get_log_prob_addk (prev_word word : String) (unigram_counts : Counter)
    (bigram_counts : BigramTable) (k : ℚ) : Option ℝ × BigramTable :=
  (if ((cget unigram_counts prev_word : ℚ) + k * (unigram_counts.length : ℚ)) = 0 then none
   else if addkArg prev_word word unigram_counts bigram_counts k ≤ 0 then none
   else some (Real.log ((addkArg prev_word word unigram_counts bigram_counts k : ℚ) : ℝ)),
   vivify bigram_counts prev_word)

/-- The bigram summand of `get_log_prob_interp`: zero when the raw product is
zero, otherwise the product divided by the conditioning count (`start_count`
for the START marker, the unigram count otherwise); `none` on division by 0. -/
def interpBigramPart (prev_word word : String) (U : Counter) (B : BigramTable)
    (start_count : Nat) (bigram_lambda : ℚ) : Option ℚ :=
  if (bcount B prev_word word : ℚ) * bigram_lambda = 0 then some 0
  else if (if prev_word = "<s>" then (start_count : ℚ) else (cget U prev_word : ℚ)) = 0 then none
  else some (((bcount B prev_word word : ℚ) * bigram_lambda) /
    (if prev_word = "<s>" then (start_count : ℚ) else (cget U prev_word : ℚ)))

/-- The unigram summand `(unigram_counts[word] / token_count) * unigram_lambda`. -/
def interpUnigramPart (word : String) (U : Counter) (token_count : ℚ)
    (unigram_lambda : ℚ) : Option ℚ :=
  if token_count = 0 then none
  else some (((cget U word : ℚ) / token_count) * unigram_lambda)

/-- The zerogram summand `(1 / vocab_size) * zerogram_lambda`. -/
def interpZerogramPart (U : Counter) (zerogram_lambda : ℚ) : Option ℚ :=
  if (U.length : ℚ) = 0 then none
  else some ((1 / (U.length : ℚ)) * zerogram_lambda)

/-- `get_log_prob_interp`; `none` models the raised exceptions, and the table
component records the auto-vivifying read of `bigram_counts[prev_word]`. -/
noncomputable def get_log_prob_interp (prev_word word : String) (unigram_counts : Counter)
    (bigram_counts : BigramTable) (start_count : Nat) (token_count : ℚ)
    (lambdas : ℚ × ℚ) : Option ℝ × BigramTable :=
  ((match interpBigramPart prev_word word unigram_counts bigram_counts start_count lambdas.1,
      interpUnigramPart word unigram_counts token_count lambdas.2,
      interpZerogramPart unigram_counts (1 - lambdas.1 - lambdas.2) with
    | some b, some u, some z =>
      if b + u + z ≤ 0 then none else some (Real.log ((b + u + z : ℚ) : ℝ))
    | _, _, _ => none),
   vivify bigram_counts prev_word)

/-- Spec-side description of the interpolated bigram term, following the
specification's words. -/
def specBigramTerm (prev_word word : String) (U : Counter) (B : BigramTable)
    (start_count : Nat) (bigram_lambda : ℚ) : ℚ :=
  if (bcount B prev_word word : ℚ) * bigram_lambda = 0 then 0
  else ((bcount B prev_word word : ℚ) * bigram_lambda) /
        (if prev_word = "<s>" then (start_count : ℚ) else (cget U prev_word : ℚ))

/-- Spec-side description of the interpolated unigram term. -/
def specUnigramTerm (word : String) (U : Counter) (token_count : ℚ)
    (unigram_lambda : ℚ) : ℚ :=
  ((cget U word : ℚ) / token_count) * unigram_lambda

/-- Spec-side description of the interpolated zerogram term. -/
def specZerogramTerm (U : Counter) (bigram_lambda unigram_lambda : ℚ) : ℚ :=
  (1 / (U.length : ℚ)) * (1 - bigram_lambda - unigram_lambda)

/-- The summation of per-pair log probabilities inside the sentence scorers,
threading the (possibly vivified) bigram table through the calls in order. -/
def scoreLoop (f : String → String → BigramTable → Option ℝ × BigramTable) :
    List (String × String) → BigramTable → Option ℝ × BigramTable
  | [], b => (some 0, b)
  | (p, w) :: rest, b =>
    match f p w b with
    | (none, b1) => (none, b1)
    | (some x, b1) =>
      match scoreLoop f rest b1 with
      | (none, b2) => (none, b2)
      | (some y, b2) => (some (x + y), b2)

/-- `get_sent_log_prob_addk`: normalize, form the adjacent pairs, and sum the
add-k log probabilities.  `start_count` and `token_count` are accepted but
unused, exactly as in the source. -/
noncomputable def get_sent_log_prob_addk (sentence : List String) (unigram_counts : Counter)
    (bigram_counts : BigramTable) (start_count : Nat) (token_count : ℚ) (k : ℚ) :
    Option ℝ × BigramTable :=
  scoreLoop (fun p w b => get_log_prob_addk p w unigram_counts b k)
    (pairsOf (convert_sentence sentence)) bigram_counts

/-- `get_sent_log_prob_interp`. -/
noncomputable def get_sent_log_prob_interp (sentence : List String) (unigram_counts : Counter)
    (bigram_counts : BigramTable) (start_count : Nat) (token_count : ℚ)
    (lambdas : ℚ × ℚ) : Option ℝ × BigramTable :=
  scoreLoop
    (fun p w b => get_log_prob_interp p w unigram_counts b start_count token_count lambdas)
    (pairsOf (convert_sentence sentence)) bigram_counts

/-- The accumulation loop of `calculate_perplexity`: per-sentence log
probability (failure propagates like an exception) and token count
`len(sentence) + 1`, threading the bigram table. -/
def perpLoop {α : Type} (U : Counter) (sc : Nat) (tc : ℚ)
    (sf : List String → Counter → BigramTable → Nat → ℚ → α → Option ℝ × BigramTable)
    (prm : α) : List (List String) → BigramTable → Option ℝ × Nat × BigramTable
  | [], b => (some 0, 0, b)
  | s :: rest, b =>
    match sf s U b sc tc prm with
    | (none, b1) => (none, s.length + 1, b1)
    | (some x, b1) =>
      match perpLoop U sc tc sf prm rest b1 with
      | (none, n, b2) => (none, s.length + 1 + n, b2)
      | (some y, n, b2) => (some (x + y), s.length + 1 + n, b2)

/-- `calculate_perplexity`: `exp(-total_log_prob / test_token_count)`; a zero
token count (empty test corpus) raises `ZeroDivisionError`, modelled as
`none`. -/
noncomputable def calculate_perplexity {α : Type} (sentences : List (List String))
    (unigram_counts : Counter) (bigram_counts : BigramTable) (start_count : Nat)
    (token_count : ℚ)
    (smoothing_function : List String → Counter → BigramTable → Nat → ℚ → α → Option ℝ × BigramTable)
    (parameter : α) : Option ℝ × BigramTable :=
  match perpLoop unigram_counts start_count token_count smoothing_function parameter
      sentences bigram_counts with
  | (none, _, b) => (none, b)
  | (some t, n, b) => (if n = 0 then none else some (Real.exp (-t / (n : ℝ))), b)

/-- The sampling loop of `generate_sentence`.  `sel` abstracts the weighted
random draw `choice(keys, p=probs)`: at each step it returns one key of the
current row.  `fuel` bounds the number of iterations; a run that has not
reached the END marker within `fuel` steps, or that probes an empty row
(where `choice` raises), yields `none`.  The returned list is the sequence of
sampled tokens, ending with the END marker on success. -/
def gen_loop (sel : Nat → Counter → String) :
    Nat → BigramTable → String → Nat → Option (List String) × BigramTable
  | 0, b, current_word, _ =>
    if current_word = "</s>" then (some [], b) else (none, b)
  | n + 1, b, current_word, step =>
    if current_word = "</s>" then (some [], b)
    else if dget b current_word = [] then (none, vivify b current_word)
    else
      ((gen_loop sel n (vivify b current_word) (sel step (dget b current_word)) (step + 1)).1.map
          (fun l => sel step (dget b current_word) :: l),
        (gen_loop sel n (vivify b current_word) (sel step (dget b current_word)) (step + 1)).2)

/-- The token list returned by the generator after stripping: the full sampled
sentence is `"<s>" :: l` and the code returns `sentence[1:-1]`, i.e.
`l.dropLast`. -/
def generate_tokens (sel : Nat → Counter → String) (fuel : Nat)
    (bigram_counts : BigramTable) : Option (List String) × BigramTable :=
  ((gen_loop sel fuel bigram_counts "<s>" 0).1.map List.dropLast,
    (gen_loop sel fuel bigram_counts "<s>" 0).2)

/-- `generate_sentence`: the stripped tokens joined with spaces. -/
def generate_sentence (sel : Nat → Counter → String) (fuel : Nat)
    (bigram_counts : BigramTable) : Option String × BigramTable :=
  ((generate_tokens sel fuel bigram_counts).1.map (fun l => String.intercalate " " l),
    (generate_tokens sel fuel bigram_counts).2)

/-- A selector models `choice(list(row.keys()), p=...)` only if it returns a
key of the row it is given. -/
def selValid (sel : Nat → Counter → String) : Prop :=
  ∀ i c, c ≠ [] → sel i c ∈ c.map Prod.fst

/-- No row of the table lists the START marker among its successors. -/
def noStartSucc (b : BigramTable) : Prop :=
  ∀ p, "<s>" ∉ (dget b p).map Prod.fst

/-- The generator run from START with this selector never halts, however much
fuel it is given. -/
def genDiverges (b : BigramTable) (sel : Nat → Counter → String) : Prop :=
  ∀ fuel step, (gen_loop sel fuel b "<s>" step).1 = none

/-- A selector that always draws the first key of the row. -/
def selHead : Nat → Counter → String := fun _ c => (c.map Prod.fst).headD ""

/-- A selector that always draws the token `"a"`. -/
def selA : Nat → Counter → String := fun _ _ => "a"

/-- Purity of a sentence scorer's state effect: the rows readable from the
returned table are those of the argument table. -/
def TableFrame {α : Type}
    (sf : List String → Counter → BigramTable → Nat → ℚ → α → Option ℝ × BigramTable) : Prop :=
  ∀ s U b sc tc prm q, dget ((sf s U b sc tc prm).2) q = dget b q

/-- A sentence scorer's value depends on the bigram table only through row
lookups. -/
def TableExt {α : Type}
    (sf : List String → Counter → BigramTable → Nat → ℚ → α → Option ℝ × BigramTable) : Prop :=
  ∀ s U b₁ b₂ sc tc prm, (∀ q, dget b₁ q = dget b₂ q) →
    (sf s U b₁ sc tc prm).1 = (sf s U b₂ sc tc prm).1

/-- The log probability the add-k scorer assigns to the training sentence
`["a", "b"]` under its own counts with `k = 1`. -/
noncomputable def c5val : ℝ :=
  Real.log ((addkArg "<s>" "a" (get_counts [["a", "b"]]).1 (get_counts [["a", "b"]]).2.1 1 : ℚ) : ℝ) +
    (Real.log ((addkArg "a" "b" (get_counts [["a", "b"]]).1 (get_counts [["a", "b"]]).2.1 1 : ℚ) : ℝ) +
      (Real.log ((addkArg "b" "</s>" (get_counts [["a", "b"]]).1 (get_counts [["a", "b"]]).2.1 1 : ℚ) : ℝ) + 0))

/-- The log probability the add-k scorer assigns to `["a"]` under the counts
of the one-sentence corpus `[["a"]]` with `k = 1/10`. -/
noncomputable def c3val : ℝ :=
  Real.log ((addkArg "<s>" "a" (get_counts [["a"]]).1 (get_counts [["a"]]).2.1 (1/10) : ℚ) : ℝ) +
    (Real.log ((addkArg "a" "</s>" (get_counts [["a"]]).1 (get_counts [["a"]]).2.1 (1/10) : ℚ) : ℝ) + 0)

section TableLemmas

/-- The auto-vivifying read changes no readable row: a fresh key gets an empty
row, which is exactly what reading its absence already yielded. -/
lemma dget_vivify (b : BigramTable) (p q : String) : dget (vivify b p) q = dget b q := by
  induction b with
  | nil =>
    simp only [vivify, dget]
    split_ifs <;> rfl
  | cons hd tl ih =>
    obtain ⟨x, c⟩ := hd
    simp only [vivify]
    split_ifs with hxp
    · rfl
    · simp only [dget]
      split_ifs with hxq
      · rfl
      · exact ih

/-- The score summation preserves all readable rows provided each per-pair
call does. -/
lemma scoreLoop_frame (f : String → String → BigramTable → Option ℝ × BigramTable)
    (hf : ∀ p w b q, dget ((f p w b).2) q = dget b q) :
    ∀ prs b q, dget ((scoreLoop f prs b).2) q = dget b q := by
  intro prs
  induction prs with
  | nil => intro b q; rfl
  | cons pr rest ih =>
    intro b q
    obtain ⟨p, w⟩ := pr
    simp only [scoreLoop]
    rcases hfb : f p w b with ⟨v, b1⟩
    have hb1 : ∀ q', dget b1 q' = dget b q' := by
      intro q'
      have h := hf p w b q'
      rwa [hfb] at h
    cases v with
    | none => exact hb1 q
    | some x =>
      rcases hrec : scoreLoop f rest b1 with ⟨v2, b2⟩
      have hb2 : ∀ q', dget b2 q' = dget b1 q' := by
        intro q'
        have h := ih b1 q'
        rwa [hrec] at h
      dsimp only
      rw [hrec]
      cases v2 with
      | none => exact (hb2 q).trans (hb1 q)
      | some y => exact (hb2 q).trans (hb1 q)

/-- The generator loop preserves all readable rows. -/
lemma gen_loop_frame (sel : Nat → Counter → String) :
    ∀ fuel b cur st q, dget ((gen_loop sel fuel b cur st).2) q = dget b q := by
  intro fuel
  induction fuel with
  | zero =>
    intro b cur st q
    simp only [gen_loop]
    split_ifs <;> rfl
  | succ n ih =>
    intro b cur st q
    simp only [gen_loop]
    split_ifs with h1 h2
    · rfl
    · exact dget_vivify b cur q
    · exact (ih _ _ _ q).trans (dget_vivify b cur q)

/-- The add-k sentence scorer is a pure read of the table rows. -/
lemma sent_addk_frame : TableFrame get_sent_log_prob_addk := by
  intro s U b sc tc k q
  exact scoreLoop_frame _ (fun p w b' q' => dget_vivify b' p q') _ b q

/-- The interpolated sentence scorer is a pure read of the table rows. -/
lemma sent_interp_frame : TableFrame get_sent_log_prob_interp := by
  intro s U b sc tc lam q
  exact scoreLoop_frame _ (fun p w b' q' => dget_vivify b' p q') _ b q

end TableLemmas

/-- C4 (amended): every estimator call, sentence-scorer call, and generator
run leaves UnigramCounts untouched and changes no stored count of
BigramCounts: each row read of the table returned by the call gives exactly
the row it gave before.  (The key set itself can grow: a lookup with a prev
absent from BigramCounts appends an empty row for it, defaultdict
auto-vivification, so the tables are not literally equal.) -/
theorem estimator_scorer_generator_frame :
    (∀ p w U b k q, dget ((get_log_prob_addk p w U b k).2) q = dget b q) ∧
    (∀ p w U b sc tc lam q, dget ((get_log_prob_interp p w U b sc tc lam).2) q = dget b q) ∧
    (∀ s U b sc tc k q, dget ((get_sent_log_prob_addk s U b sc tc k).2) q = dget b q) ∧
    (∀ s U b sc tc lam q, dget ((get_sent_log_prob_interp s U b sc tc lam).2) q = dget b q) ∧
    (∀ sel fuel b cur st q, dget ((gen_loop sel fuel b cur st).2) q = dget b q) :=
  ⟨fun p _ _ b _ q => dget_vivify b p q,
   fun p _ _ b _ _ _ q => dget_vivify b p q,
   fun s U b sc tc k q => sent_addk_frame s U b sc tc k q,
   fun s U b sc tc lam q => sent_interp_frame s U b sc tc lam q,
   fun sel fuel b cur st q => gen_loop_frame sel fuel b cur st q⟩

/-- C4 counterexample: querying the add-k estimator with a conditioning token
absent from BigramCounts appends an empty row for it, so the bigram table
(and its key set) is not equal before and after the call. -/
theorem addk_vivifies_missing_row :
    (get_log_prob_addk "c" "d" (get_counts [["a", "b"]]).1 (get_counts [["a", "b"]]).2.1 1).2
      = (get_counts [["a", "b"]]).2.1 ++ [("c", [])] := by decide

/-- C6: `get_counts` on the one-sentence corpus `[["a", "b"]]` yields unigram
counts `{a:1, b:1, </s>:1}` (START excluded, END included), bigram rows
`{<s>:{a:1}, a:{b:1}, b:{</s>:1}}`, StartCount 1 and TokenCount 3. -/
theorem get_counts_roundtrip :
    get_counts [["a", "b"]]
      = ([("a", 1), ("b", 1), ("</s>", 1)],
         [("<s>", [("a", 1)]), ("a", [("b", 1)]), ("b", [("</s>", 1)])], 1, (3 : ℚ)) := by
  decide

/-- C10: the add-k sentence scorer's output (value and table alike) does not
depend on the `start_count` and `token_count` arguments. -/
theorem addk_scorer_ignores_counts (s : List String) (U : Counter) (b : BigramTable)
    (sc₁ sc₂ : Nat) (tc₁ tc₂ : ℚ) (k : ℚ) :
    get_sent_log_prob_addk s U b sc₁ tc₁ k = get_sent_log_prob_addk s U b sc₂ tc₂ k := rfl

section CountingLemmas

lemma cget_cons (x : String) (n : Nat) (rest : Counter) (w : String) :
    cget ((x, n) :: rest) w = if x = w then n else cget rest w := rfl

lemma scount_cons (x : String) (l : List String) (w : String) :
    scount (x :: l) w = (if x = w then 1 else 0) + scount l w := rfl

lemma pcount_cons (a b : String) (rest : List (String × String)) (q v : String) :
    pcount ((a, b) :: rest) q v = (if a = q ∧ b = v then 1 else 0) + pcount rest q v := rfl

lemma cget_cincr (c : Counter) (w x : String) :
    cget (cincr c w) x = cget c x + (if w = x then 1 else 0) := by
  induction c with
  | nil =>
    simp only [cincr, cget]
    split_ifs <;> simp
  | cons hd tl ih =>
    obtain ⟨a, n⟩ := hd
    by_cases haw : a = w
    · rw [show cincr ((a, n) :: tl) w = (a, n + 1) :: tl from by simp [cincr, haw]]
      rw [cget_cons, cget_cons]
      by_cases hax : a = x
      · have hwx : w = x := by rw [← haw]; exact hax
        rw [if_pos hax, if_pos hax, if_pos hwx]
      · have hwx : ¬ w = x := by rw [← haw]; exact hax
        rw [if_neg hax, if_neg hax, if_neg hwx]
        omega
    · rw [show cincr ((a, n) :: tl) w = (a, n) :: cincr tl w from by simp [cincr, haw]]
      rw [cget_cons, cget_cons]
      by_cases hax : a = x
      · have hwx : ¬ w = x := fun h => haw (hax.trans h.symm)
        rw [if_pos hax, if_pos hax, if_neg hwx]
        omega
      · rw [if_neg hax, if_neg hax]
        exact ih

lemma cget_addUni (ws : List String) : ∀ (c : Counter) (x : String),
    cget (addUni c ws) x = cget c x + scount ws x := by
  induction ws with
  | nil => intro c x; simp [addUni, scount]
  | cons w rest ih =>
    intro c x
    have h1 : addUni c (w :: rest) = addUni (cincr c w) rest := by
      simp [addUni]
    rw [h1, ih (cincr c w) x, cget_cincr]
    simp only [scount]
    omega

lemma cget_unigram_fold (S : List (List String)) : ∀ (c : Counter) (x : String),
    cget (S.foldl (fun u s => addUni u ((convert_sentence s).drop 1)) c) x
      = cget c x + (S.map (fun s => scount ((convert_sentence s).drop 1) x)).sum := by
  induction S with
  | nil => intro c x; simp
  | cons s rest ih =>
    intro c x
    simp only [List.foldl_cons, List.map_cons, List.sum_cons]
    rw [ih, cget_addUni]
    omega

lemma bcount_bincr (b : BigramTable) (p w q v : String) :
    bcount (bincr b p w) q v = bcount b q v + (if p = q ∧ w = v then 1 else 0) := by
  induction b with
  | nil =>
    by_cases hpq : p = q
    · subst hpq
      by_cases hwv : w = v
      · subst hwv
        simp [bincr, bcount, dget, cincr, cget]
      · simp [bincr, bcount, dget, cincr, cget, hwv]
    · simp [bincr, bcount, dget, cincr, cget, hpq]
  | cons hd tl ih =>
    obtain ⟨x, c⟩ := hd
    by_cases hxp : x = p
    · subst hxp
      rw [show bincr ((x, c) :: tl) x w = (x, cincr c w) :: tl from by simp [bincr]]
      by_cases hxq : x = q
      · subst hxq
        rw [show bcount ((x, cincr c w) :: tl) x v = cget (cincr c w) v from by
              simp [bcount, dget]]
        rw [show bcount ((x, c) :: tl) x v = cget c v from by simp [bcount, dget]]
        rw [cget_cincr]
        have h0 : (if x = x ∧ w = v then 1 else 0) = (if w = v then 1 else 0) := by simp
        rw [h0]
      · rw [show bcount ((x, cincr c w) :: tl) q v = bcount tl q v from by
              simp [bcount, dget, hxq]]
        rw [show bcount ((x, c) :: tl) q v = bcount tl q v from by simp [bcount, dget, hxq]]
        have h0 : ¬ (x = q ∧ w = v) := fun h => hxq h.1
        rw [if_neg h0]
        omega
    · rw [show bincr ((x, c) :: tl) p w = (x, c) :: bincr tl p w from by simp [bincr, hxp]]
      by_cases hxq : x = q
      · subst hxq
        rw [show bcount ((x, c) :: bincr tl p w) x v = cget c v from by simp [bcount, dget]]
        rw [show bcount ((x, c) :: tl) x v = cget c v from by simp [bcount, dget]]
        have h0 : ¬ (p = x ∧ w = v) := fun h => hxp h.1.symm
        rw [if_neg h0]
        omega
      · rw [show bcount ((x, c) :: bincr tl p w) q v = bcount (bincr tl p w) q v from by
              simp [bcount, dget, hxq]]
        rw [show bcount ((x, c) :: tl) q v = bcount tl q v from by simp [bcount, dget, hxq]]
        exact ih

lemma bcount_addBi (prs : List (String × String)) : ∀ (b : BigramTable) (q v : String),
    bcount (addBi b prs) q v = bcount b q v + pcount prs q v := by
  induction prs with
  | nil => intro b q v; simp [addBi, pcount]
  | cons pr rest ih =>
    intro b q v
    obtain ⟨p, w⟩ := pr
    have h1 : addBi b ((p, w) :: rest) = addBi (bincr b p w) rest := by
      simp [addBi]
    rw [h1, ih (bincr b p w) q v, bcount_bincr]
    simp only [pcount]
    omega

lemma bcount_bigram_fold (S : List (List String)) : ∀ (b : BigramTable) (q v : String),
    bcount (S.foldl (fun bb s => addBi bb (pairsOf (convert_sentence s))) b) q v
      = bcount b q v + (S.map (fun s => pcount (pairsOf (convert_sentence s)) q v)).sum := by
  induction S with
  | nil => intro b q v; simp
  | cons s rest ih =>
    intro b q v
    simp only [List.foldl_cons, List.map_cons, List.sum_cons]
    rw [ih, bcount_addBi]
    omega

lemma get_counts_fst (S : List (List String)) :
    (get_counts S).1 = S.foldl (fun u s => addUni u ((convert_sentence s).drop 1)) [] := rfl

lemma get_counts_bi (S : List (List String)) :
    (get_counts S).2.1 = S.foldl (fun b s => addBi b (pairsOf (convert_sentence s))) [] := rfl

lemma pcount_zip_le (l₁ : List String) : ∀ (l₂ : List String) (q v : String),
    pcount (l₁.zip l₂) q v ≤ scount l₁ q := by
  induction l₁ with
  | nil => intro l₂ q v; simp [pcount]
  | cons a t ih =>
    intro l₂ q v
    cases l₂ with
    | nil => simp [pcount, scount]
    | cons c t2 =>
      rw [List.zip_cons_cons, pcount_cons, scount_cons]
      have h := ih t2 q v
      by_cases h1 : a = q ∧ c = v
      · rw [if_pos h1, if_pos h1.1]
        omega
      · rw [if_neg h1]
        by_cases h2 : a = q
        · rw [if_pos h2]; omega
        · rw [if_neg h2]; omega

lemma scount_dropLast_le (l : List String) (w : String) :
    scount l.dropLast w ≤ scount l w := by
  induction l with
  | nil => simp [scount]
  | cons a t ih =>
    cases t with
    | nil => simp [List.dropLast, scount]
    | cons c t2 =>
      rw [List.dropLast_cons₂, scount_cons, scount_cons]
      have h2 : scount (c :: t2).dropLast w ≤ scount (c :: t2) w := ih
      omega

lemma scount_append (l₁ l₂ : List String) (w : String) :
    scount (l₁ ++ l₂) w = scount l₁ w + scount l₂ w := by
  induction l₁ with
  | nil => simp [scount]
  | cons a t ih =>
    rw [List.cons_append, scount_cons, scount_cons, ih]
    omega

lemma pcount_pairs_le (s : List String) (p w : String) (hp : p ≠ "<s>") :
    pcount (pairsOf (convert_sentence s)) p w ≤ scount ((convert_sentence s).drop 1) p := by
  have h1 : pcount (pairsOf (convert_sentence s)) p w
      ≤ scount (convert_sentence s).dropLast p := pcount_zip_le _ _ _ _
  refine h1.trans ?_
  have hc : convert_sentence s = "<s>" :: (s.map lowerStr ++ ["</s>"]) := by
    simp [convert_sentence]
  rw [hc]
  cases hb : s.map lowerStr ++ ["</s>"] with
  | nil => simp at hb
  | cons y ys =>
    rw [List.dropLast_cons₂, scount_cons]
    have hps : ¬ ("<s>" : String) = p := fun h => hp h.symm
    rw [if_neg hps]
    have h := scount_dropLast_le (y :: ys) p
    have hd : (("<s>" : String) :: y :: ys).drop 1 = y :: ys := rfl
    rw [hd]
    omega

lemma bigram_le_unigram (S : List (List String)) (p w : String) (hp : p ≠ "<s>") :
    bcount (get_counts S).2.1 p w ≤ cget (get_counts S).1 p := by
  rw [get_counts_fst, get_counts_bi, bcount_bigram_fold, cget_unigram_fold]
  have h0 : bcount [] p w = 0 := rfl
  have h1 : cget [] p = 0 := rfl
  rw [h0, h1]
  simp only [Nat.zero_add]
  exact List.sum_le_sum (fun s _ => pcount_pairs_le s p w hp)

lemma scount_end_ge (s : List String) :
    1 ≤ scount ((convert_sentence s).drop 1) "</s>" := by
  have hc : (convert_sentence s).drop 1 = s.map lowerStr ++ ["</s>"] := by
    simp [convert_sentence]
  rw [hc, scount_append]
  simp [scount]

lemma unigram_ne_nil (S : List (List String)) (hS : S ≠ []) : (get_counts S).1 ≠ [] := by
  intro h
  have h1 : cget (get_counts S).1 "</s>" = 0 := by rw [h]; rfl
  rw [get_counts_fst, cget_unigram_fold] at h1
  cases S with
  | nil => exact hS rfl
  | cons s rest =>
    simp only [List.map_cons, List.sum_cons, cget] at h1
    have := scount_end_ge s
    omega

lemma unigram_len_pos (S : List (List String)) (hS : S ≠ []) :
    1 ≤ (get_counts S).1.length :=
  List.length_pos.mpr (unigram_ne_nil S hS)

end CountingLemmas

section NodupLemmas

lemma mem_keys_cincr (c : Counter) (w y : String) :
    y ∈ (cincr c w).map Prod.fst ↔ y ∈ c.map Prod.fst ∨ y = w := by
  induction c with
  | nil => simp [cincr]
  | cons hd tl ih =>
    obtain ⟨a, n⟩ := hd
    simp only [cincr]
    split_ifs with haw
    · subst haw
      simp only [List.map_cons, List.mem_cons]
      tauto
    · simp only [List.map_cons, List.mem_cons, ih]
      tauto

lemma nodup_keys_cincr (c : Counter) (w : String) (h : (c.map Prod.fst).Nodup) :
    ((cincr c w).map Prod.fst).Nodup := by
  induction c with
  | nil => simp [cincr]
  | cons hd tl ih =>
    obtain ⟨a, n⟩ := hd
    simp only [List.map_cons, List.nodup_cons] at h
    obtain ⟨ha, htl⟩ := h
    simp only [cincr]
    split_ifs with haw
    · simp only [List.map_cons, List.nodup_cons]
      exact ⟨ha, htl⟩
    · simp only [List.map_cons, List.nodup_cons]
      refine ⟨?_, ih htl⟩
      rw [mem_keys_cincr]
      rintro (h1 | h2)
      · exact ha h1
      · exact haw h2

lemma nodup_keys_addUni (ws : List String) : ∀ (c : Counter),
    (c.map Prod.fst).Nodup → ((addUni c ws).map Prod.fst).Nodup := by
  induction ws with
  | nil => intro c h; simpa [addUni] using h
  | cons w rest ih =>
    intro c h
    have h1 : addUni c (w :: rest) = addUni (cincr c w) rest := by simp [addUni]
    rw [h1]
    exact ih (cincr c w) (nodup_keys_cincr c w h)

lemma nodup_unigram_keys (S : List (List String)) :
    (((get_counts S).1).map Prod.fst).Nodup := by
  rw [get_counts_fst]
  have h : ∀ (c : Counter), (c.map Prod.fst).Nodup →
      ((S.foldl (fun u s => addUni u ((convert_sentence s).drop 1)) c).map Prod.fst).Nodup := by
    induction S with
    | nil => intro c h; simpa using h
    | cons s rest ih =>
      intro c h
      simp only [List.foldl_cons]
      exact ih _ (nodup_keys_addUni _ c h)
  exact h [] (by simp)

lemma dkeys_eq_length (c : Counter) (h : (c.map Prod.fst).Nodup) : dkeys c = c.length := by
  rw [dkeys, List.dedup_eq_self.mpr h, List.length_map]

end NodupLemmas

/-- C1: for count tables produced by `get_counts`, `k > 0` and a non-empty
vocabulary, the add-k estimator returns exactly
`log((BigramCounts[prev][word] + k) / (UnigramCounts[prev] + k * |V|))`,
where missing keys read as zero counts (no error is raised) and `|V|` is the
number of distinct keys of UnigramCounts. -/
theorem addk_formula (S : List (List String)) (p w : String) (k : ℚ)
    (hk : 0 < k) (hV : (get_counts S).1 ≠ []) :
    (get_log_prob_addk p w (get_counts S).1 (get_counts S).2.1 k).1
      = some (Real.log ((((bcount (get_counts S).2.1 p w : ℚ) + k) /
          ((cget (get_counts S).1 p : ℚ) + k * (dkeys (get_counts S).1 : ℚ)) : ℚ) : ℝ)) := by
  have hlen : (1 : ℚ) ≤ ((get_counts S).1.length : ℚ) := by
    exact_mod_cast Nat.one_le_iff_ne_zero.mpr
      (fun h => hV (List.length_eq_zero.mp h))
  have hcge : (0 : ℚ) ≤ (cget (get_counts S).1 p : ℚ) := Nat.cast_nonneg _
  have hden : 0 < (cget (get_counts S).1 p : ℚ) + k * ((get_counts S).1.length : ℚ) := by
    nlinarith
  have hnum : 0 < (bcount (get_counts S).2.1 p w : ℚ) + k := by
    have : (0 : ℚ) ≤ (bcount (get_counts S).2.1 p w : ℚ) := Nat.cast_nonneg _
    linarith
  have harg : 0 < addkArg p w (get_counts S).1 (get_counts S).2.1 k :=
    div_pos hnum hden
  simp only [get_log_prob_addk]
  rw [if_neg hden.ne', if_neg (not_le.mpr harg)]
  rw [dkeys_eq_length _ (nodup_unigram_keys S)]
  rfl

/-- C1 witness: instantiation at the corpus `[["a", "b"]]` with a conditioning
token and word absent from the tables and `k = 1`. -/
theorem addk_formula_witness :
    (get_log_prob_addk "x" "y" (get_counts [["a", "b"]]).1 (get_counts [["a", "b"]]).2.1 1).1
      = some (Real.log ((((bcount (get_counts [["a", "b"]]).2.1 "x" "y" : ℚ) + 1) /
          ((cget (get_counts [["a", "b"]]).1 "x" : ℚ) + 1 * (dkeys (get_counts [["a", "b"]]).1 : ℚ)) : ℚ) : ℝ)) :=
  addk_formula [["a", "b"]] "x" "y" 1 (by norm_num) (by decide)

/-- C3 (amended): for count tables produced by `get_counts` on a non-empty
corpus and any `k > 0`, the exponential of the add-k log probability of any
pair whose conditioning token is not the START marker lies in `(0, 1]`.  The
original sentence-level claim fails: the first pair of every scored sentence
is conditioned on START, whose unigram count is 0, so its smoothed
probability — and hence `exp` of the sentence score — can exceed 1. -/
theorem addk_prob_in_unit (S : List (List String)) (p w : String) (k : ℚ) (r : ℝ)
    (hS : S ≠ []) (hk : 0 < k) (hp : p ≠ "<s>")
    (hr : (get_log_prob_addk p w (get_counts S).1 (get_counts S).2.1 k).1 = some r) :
    Real.exp r ∈ Set.Ioc (0 : ℝ) 1 := by
  have hlen : (1 : ℚ) ≤ ((get_counts S).1.length : ℚ) := by
    exact_mod_cast unigram_len_pos S hS
  have hcge : (0 : ℚ) ≤ (cget (get_counts S).1 p : ℚ) := Nat.cast_nonneg _
  have hden : 0 < (cget (get_counts S).1 p : ℚ) + k * ((get_counts S).1.length : ℚ) := by
    nlinarith
  have hnum : 0 < (bcount (get_counts S).2.1 p w : ℚ) + k := by
    have h := Nat.cast_nonneg (α := ℚ) (bcount (get_counts S).2.1 p w)
    linarith
  have harg : 0 < addkArg p w (get_counts S).1 (get_counts S).2.1 k := div_pos hnum hden
  have hle : addkArg p w (get_counts S).1 (get_counts S).2.1 k ≤ 1 := by
    rw [addkArg, div_le_one hden]
    have hbu : (bcount (get_counts S).2.1 p w : ℚ) ≤ (cget (get_counts S).1 p : ℚ) := by
      exact_mod_cast bigram_le_unigram S p w hp
    nlinarith
  simp only [get_log_prob_addk] at hr
  rw [if_neg hden.ne', if_neg (not_le.mpr harg)] at hr
  have hr2 : r = Real.log ((addkArg p w (get_counts S).1 (get_counts S).2.1 k : ℚ) : ℝ) :=
    (Option.some_inj.mp hr).symm
  rw [hr2, Set.mem_Ioc]
  have hx : (0 : ℝ) < ((addkArg p w (get_counts S).1 (get_counts S).2.1 k : ℚ) : ℝ) := by
    exact_mod_cast harg
  constructor
  · exact Real.exp_pos _
  · rw [Real.exp_log hx]
    exact_mod_cast hle

/-- C3 witness: the pair `("a", "</s>")` of the corpus `[["a"]]` with `k = 1`. -/
theorem addk_prob_in_unit_witness :
    Real.exp (Real.log ((addkArg "a" "</s>" (get_counts [["a"]]).1 (get_counts [["a"]]).2.1 1 : ℚ) : ℝ))
      ∈ Set.Ioc (0 : ℝ) 1 :=
  addk_prob_in_unit [["a"]] "a" "</s>" 1 _ (by decide) (by norm_num) (by decide)
    (by norm_num +decide [get_log_prob_addk, addkArg, bcount, cget, dget, get_counts,
      addUni, addBi, cincr, bincr, convert_sentence, lowerStr, pairsOf, ctotal])

/-- C3 counterexample: on the corpus `[["a"]]` with `k = 1/10`, the add-k
score of the sentence `["a"]` has `exp(score) > 1`: the START-conditioned
first pair alone carries probability `(1 + k)/(2k) = 11/2`. -/
theorem addk_sentence_score_exceeds_one :
    (get_sent_log_prob_addk ["a"] (get_counts [["a"]]).1 (get_counts [["a"]]).2.1 1 2 (1/10)).1
        = some c3val
      ∧ 1 < Real.exp c3val := by
  constructor
  · norm_num +decide [get_sent_log_prob_addk, scoreLoop, get_log_prob_addk, c3val, pairsOf,
      convert_sentence, addkArg, bcount, cget, dget, get_counts, addUni, addBi, cincr, bincr,
      vivify, lowerStr, ctotal]
  · have hU : (get_counts [["a"]]).1 = [("a", 1), ("</s>", 1)] := by decide
    have hB : (get_counts [["a"]]).2.1 = [("<s>", [("a", 1)]), ("a", [("</s>", 1)])] := by decide
    have h1 : addkArg "<s>" "a" (get_counts [["a"]]).1 (get_counts [["a"]]).2.1 (1/10) = 11/2 := by
      rw [hU, hB]
      norm_num +decide [addkArg, bcount, cget, dget]
    have h2 : addkArg "a" "</s>" (get_counts [["a"]]).1 (get_counts [["a"]]).2.1 (1/10) = 11/12 := by
      rw [hU, hB]
      norm_num +decide [addkArg, bcount, cget, dget]
    have hval : c3val = Real.log ((11/2 : ℝ)) + (Real.log ((11/12 : ℝ)) + 0) := by
      simp only [c3val, h1, h2]
      norm_num
    rw [hval, add_zero]
    have hgt : (0 : ℝ) < Real.log (11/2) + Real.log (11/12) := by
      rw [← Real.log_mul (by norm_num) (by norm_num)]
      apply Real.log_pos
      norm_num
    calc (1 : ℝ) = Real.exp 0 := Real.exp_zero.symm
      _ < Real.exp (Real.log (11/2) + Real.log (11/12)) := Real.exp_lt_exp.mpr hgt

/-- C7 (amended): for fixed count tables over a non-empty vocabulary and
`0 < k₁ < k₂`, the add-k smoothed probability moves monotonically toward the
uniform value `1/|V|`: it is strictly decreasing in `k` when
`UnigramCounts[prev] < BigramCounts[prev][word] * |V|`, strictly increasing
when `UnigramCounts[prev] > BigramCounts[prev][word] * |V|` — which can
happen even for a nonzero raw count — and constant when the two sides are
equal.  The original claim's direction for nonzero raw counts is false. -/
theorem addk_k_monotone (U : Counter) (B : BigramTable) (p w : String) (k₁ k₂ : ℚ)
    (hk₁ : 0 < k₁) (hk : k₁ < k₂) (hV : U ≠ []) :
    (((cget U p : ℚ) < (bcount B p w : ℚ) * (U.length : ℚ)) →
        addkArg p w U B k₂ < addkArg p w U B k₁)
    ∧ (((bcount B p w : ℚ) * (U.length : ℚ) < (cget U p : ℚ)) →
        addkArg p w U B k₁ < addkArg p w U B k₂)
    ∧ (((bcount B p w : ℚ) * (U.length : ℚ) = (cget U p : ℚ)) →
        addkArg p w U B k₁ = addkArg p w U B k₂) := by
  have hk₂ : 0 < k₂ := hk₁.trans hk
  have hlen : (1 : ℚ) ≤ (U.length : ℚ) := by
    exact_mod_cast Nat.one_le_iff_ne_zero.mpr (fun h => hV (List.length_eq_zero.mp h))
  have hU0 : (0 : ℚ) ≤ (cget U p : ℚ) := Nat.cast_nonneg _
  have hB0 : (0 : ℚ) ≤ (bcount B p w : ℚ) := Nat.cast_nonneg _
  have hd₁ : 0 < (cget U p : ℚ) + k₁ * (U.length : ℚ) := by nlinarith
  have hd₂ : 0 < (cget U p : ℚ) + k₂ * (U.length : ℚ) := by nlinarith
  refine ⟨?_, ?_, ?_⟩
  · intro h
    rw [addkArg, addkArg, div_lt_div_iff hd₂ hd₁]
    nlinarith [mul_pos (sub_pos.mpr hk) (sub_pos.mpr h)]
  · intro h
    rw [addkArg, addkArg, div_lt_div_iff hd₁ hd₂]
    nlinarith [mul_pos (sub_pos.mpr hk) (sub_pos.mpr h)]
  · intro h
    rw [addkArg, addkArg, div_eq_div_iff hd₁.ne' hd₂.ne']
    linear_combination (k₂ - k₁) * h

/-- C7 witness: with UnigramCounts `{b:5, c:1}` and BigramCounts `{b:{c:1}}`,
the bigram `(b, c)` has `count * |V| = 2 < 5 = UnigramCounts[b]`, so its
smoothed probability strictly increases from `k = 1` to `k = 2`. -/
theorem addk_k_monotone_witness :
    addkArg "b" "c" [("b", 5), ("c", 1)] [("b", [("c", 1)])] 1
      < addkArg "b" "c" [("b", 5), ("c", 1)] [("b", [("c", 1)])] 2 :=
  (addk_k_monotone [("b", 5), ("c", 1)] [("b", [("c", 1)])] "b" "c" 1 2 (by norm_num)
      (by norm_num) (by decide)).2.1
    (by norm_num +decide [bcount, cget, dget])

/-- C7 counterexample: in the tables built from the corpus `[["a", "a", "a"]]`
the bigram `("a", "</s>")` has a nonzero raw count, yet its add-k probability
`(1+k)/(3+2k)` strictly increases from `k = 1` to `k = 2`, contradicting the
claimed monotone decrease for nonzero-count bigrams. -/
theorem addk_k_monotone_cex :
    0 < bcount (get_counts [["a", "a", "a"]]).2.1 "a" "</s>"
      ∧ addkArg "a" "</s>" (get_counts [["a", "a", "a"]]).1 (get_counts [["a", "a", "a"]]).2.1 1
        < addkArg "a" "</s>" (get_counts [["a", "a", "a"]]).1 (get_counts [["a", "a", "a"]]).2.1 2 := by
  constructor
  · decide
  · have hU : (get_counts [["a", "a", "a"]]).1 = [("a", 3), ("</s>", 1)] := by decide
    have hB : (get_counts [["a", "a", "a"]]).2.1
        = [("<s>", [("a", 1)]), ("a", [("a", 2), ("</s>", 1)])] := by decide
    rw [hU, hB]
    norm_num +decide [addkArg, bcount, cget, dget]

section InterpLemmas

lemma interpBigramPart_eq (p w : String) (U : Counter) (B : BigramTable) (sc : Nat) (bl : ℚ)
    (hsc : sc ≠ 0)
    (hdiv : p ≠ "<s>" → (bcount B p w : ℚ) * bl ≠ 0 → (cget U p : ℚ) ≠ 0) :
    interpBigramPart p w U B sc bl = some (specBigramTerm p w U B sc bl) := by
  by_cases hsm : (bcount B p w : ℚ) * bl = 0
  · simp [interpBigramPart, specBigramTerm, hsm]
  · by_cases hp : p = "<s>"
    · subst hp
      have hne : ((sc : ℚ)) ≠ 0 := Nat.cast_ne_zero.mpr hsc
      simp only [interpBigramPart, specBigramTerm, if_neg hsm, if_pos rfl, if_true,
        eq_self_iff_true]
      rw [if_neg hne]
    · have hne := hdiv hp hsm
      simp [interpBigramPart, specBigramTerm, hsm, hp, hne]

lemma interpUnigramPart_eq (w : String) (U : Counter) (tc ul : ℚ) (htc : tc ≠ 0) :
    interpUnigramPart w U tc ul = some (specUnigramTerm w U tc ul) := by
  simp [interpUnigramPart, specUnigramTerm, htc]

lemma interpZerogramPart_eq (U : Counter) (bl ul : ℚ) (hV : U ≠ []) :
    interpZerogramPart U (1 - bl - ul) = some (specZerogramTerm U bl ul) := by
  have h : ((U.length : ℚ)) ≠ 0 :=
    Nat.cast_ne_zero.mpr (fun h => hV (List.length_eq_zero.mp h))
  simp [interpZerogramPart, specZerogramTerm, h]

end InterpLemmas

/-- C2 (amended): with StartCount and TokenCount positive, weights summing to
at most 1, a non-empty vocabulary, UnigramCounts[prev] nonzero whenever the
raw product is nonzero and prev is not START, and a strictly positive
three-term mixture total, the interpolated estimator returns exactly
`log(bigramTerm + unigramTerm + zerogramTerm)` with the terms as the claim
describes them (the bigram term is exactly zero, with no division performed,
whenever the raw product `BigramCounts[prev][word] * bigramWeight` is zero).
Without the added hypotheses the code raises instead of returning: e.g. a
zero mixture total makes `math.log(0.0)` raise `ValueError`. -/
theorem interp_formula (p w : String) (U : Counter) (B : BigramTable) (sc : Nat) (tc : ℚ)
    (bl ul : ℚ) (hV : U ≠ []) (hsc : 0 < sc) (htc : 0 < tc) (hl : bl + ul ≤ 1)
    (hdiv : p ≠ "<s>" → (bcount B p w : ℚ) * bl ≠ 0 → (cget U p : ℚ) ≠ 0)
    (hpos : 0 < specBigramTerm p w U B sc bl + specUnigramTerm w U tc ul
        + specZerogramTerm U bl ul) :
    (get_log_prob_interp p w U B sc tc (bl, ul)).1
      = some (Real.log ((specBigramTerm p w U B sc bl + specUnigramTerm w U tc ul
          + specZerogramTerm U bl ul : ℚ) : ℝ)) := by
  have h1 := interpBigramPart_eq p w U B sc bl hsc.ne' hdiv
  have h2 := interpUnigramPart_eq w U tc ul htc.ne'
  have h3 := interpZerogramPart_eq U bl ul hV
  simp only [get_log_prob_interp]
  rw [h1, h2, h3]
  show (if specBigramTerm p w U B sc bl + specUnigramTerm w U tc ul
          + specZerogramTerm U bl ul ≤ 0
        then none
        else some (Real.log ((specBigramTerm p w U B sc bl + specUnigramTerm w U tc ul
            + specZerogramTerm U bl ul : ℚ) : ℝ)))
      = some (Real.log ((specBigramTerm p w U B sc bl + specUnigramTerm w U tc ul
          + specZerogramTerm U bl ul : ℚ) : ℝ))
  rw [if_neg (not_le.mpr hpos)]

/-- C2 witness: the seen pair `("a", "b")` of the corpus `[["a", "b"]]` with
StartCount 1, TokenCount 3 and weights `(1/2, 1/4)`. -/
theorem interp_formula_witness :
    (get_log_prob_interp "a" "b" (get_counts [["a", "b"]]).1 (get_counts [["a", "b"]]).2.1 1 3
        (1/2, 1/4)).1
      = some (Real.log ((specBigramTerm "a" "b" (get_counts [["a", "b"]]).1
            (get_counts [["a", "b"]]).2.1 1 (1/2)
          + specUnigramTerm "b" (get_counts [["a", "b"]]).1 3 (1/4)
          + specZerogramTerm (get_counts [["a", "b"]]).1 (1/2) (1/4) : ℚ) : ℝ)) :=
  interp_formula "a" "b" (get_counts [["a", "b"]]).1 (get_counts [["a", "b"]]).2.1 1 3
    (1/2) (1/4) (by decide) (by norm_num) (by norm_num) (by norm_num)
    (fun _ _ => by
      norm_num +decide [cget, get_counts, addUni, cincr, convert_sentence, lowerStr])
    (by
      have hU : (get_counts [["a", "b"]]).1 = [("a", 1), ("b", 1), ("</s>", 1)] := by decide
      have hB : (get_counts [["a", "b"]]).2.1
          = [("<s>", [("a", 1)]), ("a", [("b", 1)]), ("b", [("</s>", 1)])] := by decide
      rw [hU, hB]
      norm_num +decide [specBigramTerm, specUnigramTerm, specZerogramTerm, bcount, cget, dget])

/-- C2 counterexample: with weights `(1, 0)` and a pair unseen in both tables,
all three mixture terms are zero and the code raises `ValueError` on
`math.log(0.0)` (modelled as `none`) instead of returning a value, although
StartCount and TokenCount are positive and the weights sum to at most 1. -/
theorem interp_log_zero_raises :
    (get_log_prob_interp "q" "r" (get_counts [["a"]]).1 (get_counts [["a"]]).2.1 1 2 (1, 0)).1
      = none := by
  have hU : (get_counts [["a"]]).1 = [("a", 1), ("</s>", 1)] := by decide
  have hB : (get_counts [["a"]]).2.1 = [("<s>", [("a", 1)]), ("a", [("</s>", 1)])] := by decide
  rw [hU, hB]
  norm_num +decide [get_log_prob_interp, interpBigramPart, interpUnigramPart,
    interpZerogramPart, bcount, cget, dget]

section ExtLemmas

lemma addk_val_ext (p w : String) (U : Counter) (b₁ b₂ : BigramTable) (k : ℚ)
    (h : ∀ q, dget b₁ q = dget b₂ q) :
    (get_log_prob_addk p w U b₁ k).1 = (get_log_prob_addk p w U b₂ k).1 := by
  simp only [get_log_prob_addk, addkArg, bcount, h p]

lemma interp_val_ext (p w : String) (U : Counter) (b₁ b₂ : BigramTable) (sc : Nat) (tc : ℚ)
    (lam : ℚ × ℚ) (h : ∀ q, dget b₁ q = dget b₂ q) :
    (get_log_prob_interp p w U b₁ sc tc lam).1 = (get_log_prob_interp p w U b₂ sc tc lam).1 := by
  simp only [get_log_prob_interp, interpBigramPart, bcount, h p]

lemma scoreLoop_ext (f : String → String → BigramTable → Option ℝ × BigramTable)
    (hframe : ∀ p w b q, dget ((f p w b).2) q = dget b q)
    (hext : ∀ p w b₁ b₂, (∀ q, dget b₁ q = dget b₂ q) → (f p w b₁).1 = (f p w b₂).1) :
    ∀ prs b₁ b₂, (∀ q, dget b₁ q = dget b₂ q) →
      (scoreLoop f prs b₁).1 = (scoreLoop f prs b₂).1 := by
  intro prs
  induction prs with
  | nil => intro b₁ b₂ h; rfl
  | cons pr rest ih =>
    intro b₁ b₂ h
    obtain ⟨p, w⟩ := pr
    simp only [scoreLoop]
    have hv : (f p w b₁).1 = (f p w b₂).1 := hext p w b₁ b₂ h
    rcases h1 : f p w b₁ with ⟨v1, c1⟩
    rcases h2 : f p w b₂ with ⟨v2, c2⟩
    rw [h1, h2] at hv
    have hv' : v1 = v2 := hv
    subst hv'
    cases v1 with
    | none => rfl
    | some x =>
      dsimp only
      have hc : ∀ q, dget c1 q = dget c2 q := by
        intro q
        have ha := hframe p w b₁ q
        have hb := hframe p w b₂ q
        rw [h1] at ha
        rw [h2] at hb
        exact ha.trans ((h q).trans hb.symm)
      have hrec := ih c1 c2 hc
      rcases hr1 : scoreLoop f rest c1 with ⟨u1, d1⟩
      rcases hr2 : scoreLoop f rest c2 with ⟨u2, d2⟩
      rw [hr1, hr2] at hrec
      have hrec' : u1 = u2 := hrec
      subst hrec'
      cases u1 with
      | none => rfl
      | some y => rfl

lemma sent_addk_ext : TableExt get_sent_log_prob_addk := by
  intro s U b₁ b₂ sc tc k h
  exact scoreLoop_ext _ (fun p w b q => dget_vivify b p q)
    (fun p w c₁ c₂ hc => addk_val_ext p w U c₁ c₂ k hc) _ b₁ b₂ h

lemma sent_interp_ext : TableExt get_sent_log_prob_interp := by
  intro s U b₁ b₂ sc tc lam h
  exact scoreLoop_ext _ (fun p w b q => dget_vivify b p q)
    (fun p w c₁ c₂ hc => interp_val_ext p w U c₁ c₂ sc tc lam hc) _ b₁ b₂ h

lemma perpLoop_eval {α : Type}
    (sf : List String → Counter → BigramTable → Nat → ℚ → α → Option ℝ × BigramTable)
    (prm : α) (U : Counter) (B : BigramTable) (sc : Nat) (tc : ℚ) (f : List String → ℝ)
    (hframe : TableFrame sf) (hext : TableExt sf) :
    ∀ (S : List (List String)) (b : BigramTable), (∀ q, dget b q = dget B q) →
      (∀ s ∈ S, (sf s U B sc tc prm).1 = some (f s)) →
      (perpLoop U sc tc sf prm S b).1 = some ((S.map f).sum) ∧
        (perpLoop U sc tc sf prm S b).2.1 = (S.map (fun s => s.length + 1)).sum := by
  intro S
  induction S with
  | nil =>
    intro b hb hf
    constructor <;> simp [perpLoop]
  | cons s rest ih =>
    intro b hb hf
    have hs : (sf s U b sc tc prm).1 = some (f s) := by
      rw [hext s U b B sc tc prm hb]
      exact hf s (List.mem_cons_self s rest)
    simp only [perpLoop]
    rcases h1 : sf s U b sc tc prm with ⟨v, b1⟩
    rw [h1] at hs
    have hv : v = some (f s) := hs
    subst hv
    dsimp only
    have hb1 : ∀ q, dget b1 q = dget B q := by
      intro q
      have hq := hframe s U b sc tc prm q
      rw [h1] at hq
      exact hq.trans (hb q)
    have hrest := ih b1 hb1 (fun s' hs' => hf s' (List.mem_cons_of_mem s hs'))
    rcases h2 : perpLoop U sc tc sf prm rest b1 with ⟨v2, n2, b2⟩
    rw [h2] at hrest
    obtain ⟨hv2, hn2⟩ := hrest
    have hv2' : v2 = some ((rest.map f).sum) := hv2
    have hn2' : n2 = (rest.map (fun s => s.length + 1)).sum := hn2
    subst hv2'
    subst hn2'
    constructor <;> simp

end ExtLemmas

/-- C5 (amended): for every non-empty test corpus whose every sentence the
chosen scorer maps to a value (no exception), the perplexity evaluator
returns exactly `exp(-totalLogProbability / totalTokenCount)` where
`totalLogProbability` is the sum of the per-sentence log probabilities and
`totalTokenCount` sums `length(sentence) + 1`.  On an empty test corpus (or
when a scorer call raises) the evaluator raises a `ZeroDivisionError`
(division by a zero token count) instead of returning. -/
theorem perplexity_formula {α : Type}
    (sf : List String → Counter → BigramTable → Nat → ℚ → α → Option ℝ × BigramTable)
    (prm : α) (S : List (List String)) (U : Counter) (B : BigramTable) (sc : Nat) (tc : ℚ)
    (f : List String → ℝ) (hS : S ≠ []) (hframe : TableFrame sf) (hext : TableExt sf)
    (hf : ∀ s ∈ S, (sf s U B sc tc prm).1 = some (f s)) :
    (calculate_perplexity S U B sc tc sf prm).1
      = some (Real.exp (-((S.map f).sum)
          / (((S.map (fun s => s.length + 1)).sum : ℕ) : ℝ))) := by
  have h := perpLoop_eval sf prm U B sc tc f hframe hext S B (fun q => rfl) hf
  simp only [calculate_perplexity]
  rcases h2 : perpLoop U sc tc sf prm S B with ⟨v, n, b⟩
  rw [h2] at h
  obtain ⟨hv, hn⟩ := h
  have hv' : v = some ((S.map f).sum) := hv
  have hn' : n = (S.map (fun s => s.length + 1)).sum := hn
  subst hv'
  subst hn'
  dsimp only
  have hne : (S.map (fun s => s.length + 1)).sum ≠ 0 := by
    cases S with
    | nil => exact absurd rfl hS
    | cons s rest =>
      simp only [List.map_cons, List.sum_cons]
      omega
  rw [if_neg hne]

lemma c5run :
    (get_sent_log_prob_addk ["a", "b"] (get_counts [["a", "b"]]).1 (get_counts [["a", "b"]]).2.1
        1 3 1).1 = some c5val := by
  norm_num +decide [get_sent_log_prob_addk, scoreLoop, get_log_prob_addk, c5val, pairsOf,
    convert_sentence, addkArg, bcount, cget, dget, get_counts, addUni, addBi, cincr, bincr,
    vivify, lowerStr, ctotal]

/-- C5 witness: the test corpus `[["a", "b"]]` scored with add-k (`k = 1`)
against the tables of the same corpus: three tokens, one sentence. -/
theorem perplexity_formula_witness :
    (calculate_perplexity [["a", "b"]] (get_counts [["a", "b"]]).1 (get_counts [["a", "b"]]).2.1
        1 3 get_sent_log_prob_addk 1).1
      = some (Real.exp (-c5val / 3)) := by
  have h := perplexity_formula get_sent_log_prob_addk 1 [["a", "b"]]
    (get_counts [["a", "b"]]).1 (get_counts [["a", "b"]]).2.1 1 3 (fun _ => c5val)
    (by simp) sent_addk_frame sent_addk_ext
    (fun s hs => by
      rw [List.mem_singleton] at hs
      subst hs
      exact c5run)
  simpa using h

/-- C5 counterexample: on an empty test corpus the accumulated token count is
zero and the final division `-total_log_prob / test_token_count` raises
`ZeroDivisionError`, so no perplexity value is returned at all, contrary to
the claim's universally quantified formula. -/
theorem perplexity_empty_raises :
    ((calculate_perplexity ([] : List (List String)) (get_counts [["a"]]).1
        (get_counts [["a"]]).2.1 1 2 get_sent_log_prob_addk 2).1).isNone = true := rfl

/-- C8 (amended): `get_counts` of an empty corpus returns empty tables with
StartCount 0 and TokenCount 0 without error, and an empty sentence is
accepted by the scorer (it is normalized to `[START, END]` and scored); but
`calculate_perplexity` applied to an empty test corpus divides by a zero
token count and raises `ZeroDivisionError` instead of returning. -/
theorem empty_input_behavior :
    get_counts [] = ([], [], 0, (0 : ℚ))
      ∧ ((get_sent_log_prob_addk [] (get_counts [["a", "b"]]).1 (get_counts [["a", "b"]]).2.1
          1 3 1).1).isSome = true
      ∧ ((calculate_perplexity ([] : List (List String)) (get_counts [["a", "b"]]).1
          (get_counts [["a", "b"]]).2.1 1 3 get_sent_log_prob_addk 1).1).isNone = true := by
  refine ⟨rfl, ?_, rfl⟩
  norm_num +decide [get_sent_log_prob_addk, scoreLoop, get_log_prob_addk, pairsOf,
    convert_sentence, addkArg, bcount, cget, dget, get_counts, addUni, addBi, cincr, bincr,
    vivify, lowerStr, ctotal]

/-- C8 counterexample: the entry point `calculate_perplexity` given the empty
test corpus does not return: the division `-0 / 0` raises
`ZeroDivisionError` (modelled as `none`). -/
theorem perplexity_empty_corpus_none :
    ((calculate_perplexity ([] : List (List String)) (get_counts [["a", "b"]]).1
        (get_counts [["a", "b"]]).2.1 1 3 get_sent_log_prob_addk 1).1).isNone = true := rfl

section GeneratorLemmas

lemma noStartSucc_vivify (b : BigramTable) (p : String) (h : noStartSucc b) :
    noStartSucc (vivify b p) := by
  intro q
  rw [dget_vivify]
  exact h q

lemma gen_loop_end (sel : Nat → Counter → String) (n : Nat) (b : BigramTable) (st : Nat) :
    gen_loop sel n b "</s>" st = (some [], b) := by
  cases n <;> simp [gen_loop]

lemma gen_loop_markers (sel : Nat → Counter → String) :
    ∀ (fuel : Nat) (b : BigramTable) (cur : String) (st : Nat) (l : List String),
      selValid sel → noStartSucc b → (gen_loop sel fuel b cur st).1 = some l →
      (∀ x ∈ l, x ≠ "<s>") ∧ (∀ x ∈ l.dropLast, x ≠ "</s>") := by
  intro fuel
  induction fuel with
  | zero =>
    intro b cur st l hsel hns hl
    by_cases hc : cur = "</s>"
    · simp only [gen_loop, if_pos hc] at hl
      have hle : l = [] := (Option.some_inj.mp hl).symm
      subst hle
      simp
    · simp [gen_loop, hc] at hl
  | succ n ih =>
    intro b cur st l hsel hns hl
    by_cases hc : cur = "</s>"
    · simp only [gen_loop, if_pos hc] at hl
      have hle : l = [] := (Option.some_inj.mp hl).symm
      subst hle
      simp
    · by_cases hrow : dget b cur = []
      · simp [gen_loop, hc, hrow] at hl
      · simp only [gen_loop, if_neg hc, if_neg hrow] at hl
        rcases Option.map_eq_some'.mp hl with ⟨l', hrec, rfl⟩
        have hmem : sel st (dget b cur) ∈ (dget b cur).map Prod.fst := hsel st _ hrow
        have hnext : sel st (dget b cur) ≠ "<s>" := by
          intro he
          rw [he] at hmem
          exact hns cur hmem
        obtain ⟨ha, hb2⟩ := ih (vivify b cur) (sel st (dget b cur)) (st + 1) l' hsel
          (noStartSucc_vivify b cur hns) hrec
        constructor
        · intro x hx
          rcases List.mem_cons.mp hx with rfl | hx'
          · exact hnext
          · exact ha x hx'
        · intro x hx
          cases l' with
          | nil => simp at hx
          | cons y ys =>
            rw [List.dropLast_cons₂] at hx
            rcases List.mem_cons.mp hx with rfl | hx'
            · intro he
              rw [he] at hrec
              rw [gen_loop_end] at hrec
              simp at hrec
            · exact hb2 x hx'

end GeneratorLemmas

/-- C9 (amended): for every run of the generator that halts (every draw
sequence under which the sampling loop reaches the END marker within its
fuel), the returned token sequence strips the leading START and the trailing
END, and — provided the table lists START as no row's successor, true of any
corpus whose sentences do not contain the literal START token — contains
neither marker.  Unconditional termination is false: a draw sequence that
always re-selects a non-END successor makes the loop run forever, so the
generator only terminates with probability 1, not for every run. -/
theorem generator_output_markers (sel : Nat → Counter → String) (fuel : Nat) (b : BigramTable)
    (toks : List String) (hsel : selValid sel) (hns : noStartSucc b)
    (h : (generate_tokens sel fuel b).1 = some toks) :
    "<s>" ∉ toks ∧ "</s>" ∉ toks := by
  simp only [generate_tokens] at h
  rcases Option.map_eq_some'.mp h with ⟨l, hl, rfl⟩
  obtain ⟨h1, h2⟩ := gen_loop_markers sel fuel b "<s>" 0 l hsel hns hl
  constructor
  · intro hmem
    exact h1 _ ((List.dropLast_sublist l).subset hmem) rfl
  · intro hmem
    exact h2 _ hmem rfl

lemma selHead_valid : selValid selHead := by
  intro i c hc
  cases c with
  | nil => exact absurd rfl hc
  | cons hd tl =>
    obtain ⟨x, n⟩ := hd
    simp [selHead]

lemma noStartSucc_ab : noStartSucc (get_counts [["a", "b"]]).2.1 := by
  intro p
  have hB : (get_counts [["a", "b"]]).2.1
      = [("<s>", [("a", 1)]), ("a", [("b", 1)]), ("b", [("</s>", 1)])] := by decide
  rw [hB]
  simp only [dget]
  split_ifs <;> decide

/-- C9 witness: with the first-key selector on the table of `[["a", "b"]]`,
the generator samples `a, b, </s>`, strips the markers and returns
`["a", "b"]`, which contains neither START nor END. -/
theorem generator_output_markers_witness :
    (generate_tokens selHead 5 (get_counts [["a", "b"]]).2.1).1 = some ["a", "b"]
      ∧ ("<s>" ∉ (["a", "b"] : List String) ∧ "</s>" ∉ (["a", "b"] : List String)) :=
  ⟨by decide,
   generator_output_markers selHead 5 (get_counts [["a", "b"]]).2.1 ["a", "b"]
     selHead_valid noStartSucc_ab (by decide)⟩

lemma selA_loop_none :
    ∀ (n st : Nat), (gen_loop selA n (get_counts [["a", "a"]]).2.1 "a" st).1 = none := by
  intro n
  induction n with
  | zero =>
    intro st
    simp [gen_loop]
  | succ m ih =>
    intro st
    simp only [gen_loop]
    rw [if_neg (by decide : ¬ ("a" : String) = "</s>")]
    rw [if_neg (by decide : ¬ dget (get_counts [["a", "a"]]).2.1 "a" = [])]
    dsimp only
    have hv : vivify (get_counts [["a", "a"]]).2.1 "a" = (get_counts [["a", "a"]]).2.1 := by
      decide
    have hsel : selA st (dget (get_counts [["a", "a"]]).2.1 "a") = "a" := rfl
    rw [hv, hsel, ih (st + 1)]
    rfl

/-- C9 counterexample: the bigram table of the corpus `[["a", "a"]]` reaches
END from every row reachable from START (row `a` stores `</s>` with count 1),
yet the run of `generate_sentence` whose draws always pick the self-loop
successor `a` never terminates: for every fuel bound the loop is still
running. -/
theorem generator_divergence :
    genDiverges (get_counts [["a", "a"]]).2.1 selA
      ∧ cget (dget (get_counts [["a", "a"]]).2.1 "<s>") "a" = 1
      ∧ cget (dget (get_counts [["a", "a"]]).2.1 "a") "</s>" = 1 := by
  refine ⟨?_, by decide, by decide⟩
  intro fuel st
  cases fuel with
  | zero => simp [gen_loop]
  | succ m =>
    simp only [gen_loop]
    rw [if_neg (by decide : ¬ ("<s>" : String) = "</s>")]
    rw [if_neg (by decide : ¬ dget (get_counts [["a", "a"]]).2.1 "<s>" = [])]
    dsimp only
    have hv : vivify (get_counts [["a", "a"]]).2.1 "<s>" = (get_counts [["a", "a"]]).2.1 := by
      decide
    have hsel : selA st (dget (get_counts [["a", "a"]]).2.1 "<s>") = "a" := rfl
    rw [hv, hsel, selA_loop_none m (st + 1)]
    rfl
